import Mathlib

/-!
Verification development for the CertifyFast certificate generator.

The Python sources are shallowly embedded: pure functions become Lean
functions over `Nat`, `ℚ` (idealising the float arithmetic) and `String`;
page mutation becomes an explicit list of emitted page operations; external
library capabilities (PDF layout provider, width measurement, pixmap
sampling) are passed in as function parameters.  Machine-word arithmetic in
the SHA-256 compression function is `Nat` arithmetic taken `% 2 ^ 32`.
-/

namespace CertifyFast

/-! ## Crypto layer: `src/utils/crypto_utils.py`

`sign_certificate` builds the canonical pipe-joined string
`name|course|date|cert_id`, appends `|secret_key`, and returns the SHA-256
hex digest; `verify_signature` recomputes and compares with
`secrets.compare_digest` (equality on equal-representation strings).
SHA-256 itself (FIPS 180-4, as computed by `hashlib.sha256`) is embedded
concretely below. -/

def m32 (x : Nat) : Nat := x % 4294967296

def rotr32 (n x : Nat) : Nat := (x >>> n) + (x % 2 ^ n) * 2 ^ (32 - n)

def mask32 : Nat := 4294967295

def shaCh (e f g : Nat) : Nat := (e &&& f) ^^^ ((e ^^^ mask32) &&& g)

def shaMaj (a b c : Nat) : Nat := (a &&& b) ^^^ (a &&& c) ^^^ (b &&& c)

def bigSigma0 (x : Nat) : Nat := rotr32 2 x ^^^ rotr32 13 x ^^^ rotr32 22 x

def bigSigma1 (x : Nat) : Nat := rotr32 6 x ^^^ rotr32 11 x ^^^ rotr32 25 x

def smallSigma0 (x : Nat) : Nat := rotr32 7 x ^^^ rotr32 18 x ^^^ (x >>> 3)

def smallSigma1 (x : Nat) : Nat := rotr32 17 x ^^^ rotr32 19 x ^^^ (x >>> 10)

def shaK : List Nat :=
  [1116352408, 1899447441, 3049323471, 3921009573, 961987163,
   1508970993, 2453635748, 2870763221, 3624381080, 310598401,
   607225278, 1426881987, 1925078388, 2162078206, 2614888103,
   3248222580, 3835390401, 4022224774, 264347078, 604807628,
   770255983, 1249150122, 1555081692, 1996064986, 2554220882,
   2821834349, 2952996808, 3210313671, 3336571891, 3584528711,
   113926993, 338241895, 666307205, 773529912, 1294757372,
   1396182291, 1695183700, 1986661051, 2177026350, 2456956037,
   2730485921, 2820302411, 3259730800, 3345764771, 3516065817,
   3600352804, 4094571909, 275423344, 430227734, 506948616,
   659060556, 883997877, 958139571, 1322822218, 1537002063,
   1747873779, 1955562222, 2024104815, 2227730452, 2361852424,
   2428436474, 2756734187, 3204031479, 3329325298]

def shaH0 : List Nat :=
  [1779033703, 3144134277, 1013904242, 2773480762,
   1359893119, 2600822924, 528734635, 1541459225]

def lenBytes64 (bits : Nat) : List Nat :=
  (List.range 8).map (fun i => (bits >>> (8 * (7 - i))) % 256)

def shaPad (msg : List Nat) : List Nat :=
  let l := msg.length
  let zeros := (64 - ((l + 9) % 64)) % 64
  msg ++ 128 :: List.replicate zeros 0 ++ lenBytes64 (l * 8)

def chunksAux : Nat → List Nat → List (List Nat)
  | 0, _ => []
  | _, [] => []
  | fuel + 1, l => l.take 64 :: chunksAux fuel (l.drop 64)

def chunks64 (l : List Nat) : List (List Nat) := chunksAux l.length l

def blockWords (block : List Nat) : List Nat :=
  (List.range 16).map (fun i =>
    block.getD (4 * i) 0 * 16777216 + block.getD (4 * i + 1) 0 * 65536 +
    block.getD (4 * i + 2) 0 * 256 + block.getD (4 * i + 3) 0)

def extendSchedule (w16 : List Nat) : List Nat :=
  (List.range 48).foldl (fun ws i =>
    let j := i + 16
    ws ++ [m32 (ws.getD (j - 16) 0 + smallSigma0 (ws.getD (j - 15) 0) +
                ws.getD (j - 7) 0 + smallSigma1 (ws.getD (j - 2) 0))]) w16

def compressBlock (h : List Nat) (block : List Nat) : List Nat :=
  let w := extendSchedule (blockWords block)
  let final := (List.range 64).foldl (fun st t =>
    let a := st.getD 0 0
    let b := st.getD 1 0
    let c := st.getD 2 0
    let d := st.getD 3 0
    let e := st.getD 4 0
    let f := st.getD 5 0
    let g := st.getD 6 0
    let hh := st.getD 7 0
    let t1 := m32 (hh + bigSigma1 e + shaCh e f g + shaK.getD t 0 + w.getD t 0)
    let t2 := m32 (bigSigma0 a + shaMaj a b c)
    [m32 (t1 + t2), a, b, c, m32 (d + t1), e, f, g]) h
  List.zipWith (fun x y => m32 (x + y)) h final

def sha256words (msg : List Nat) : List Nat :=
  (chunks64 (shaPad msg)).foldl compressBlock shaH0

def hexDigit (n : Nat) : Char :=
  if n < 10 then Char.ofNat (48 + n) else Char.ofNat (87 + n)

def wordHex (x : Nat) : List Char :=
  (List.range 8).map (fun i => hexDigit ((x >>> (4 * (7 - i))) % 16))

def strBytes (s : String) : List Nat := s.toUTF8.toList.map (fun b => b.toNat)

def sha256hex (s : String) : String :=
  String.mk (((sha256words (strBytes s)).map wordHex).flatten)

/-- Certificate tuple: the `cert_data` dict with keys name, course, date,
cert_id (`src/utils/crypto_utils.py`). -/
structure CertData where
  name : String
  course : String
  date : String
  cert_id : String
deriving DecidableEq

/-- Canonical pipe-joined representation built by `sign_certificate`. -/
def canonicalOf (c : CertData) : String :=
  c.name ++ "|" ++ c.course ++ "|" ++ c.date ++ "|" ++ c.cert_id

/-- Python `sign_certificate(cert_data, secret_key)`. -/
def sign_certificate (c : CertData) (secretKey : String) : String :=
  sha256hex (canonicalOf c ++ "|" ++ secretKey)

/-- Python `secrets.compare_digest` on two digest strings: equality. -/
def compare_digest (a b : String) : Bool := a == b

/-- Python `verify_signature(cert_data, signature, secret_key)`. -/
def verify_signature (c : CertData) (sig : String) (secretKey : String) : Bool :=
  compare_digest sig (sign_certificate c secretKey)

/-- C1: verifying the signature produced by signing a certificate tuple `T`
with key `K` against the same `T` and `K` returns true. -/
theorem signature_roundtrip_c1 (c : CertData) (k : String) :
    verify_signature c (sign_certificate c k) k = true := by
  simp [verify_signature, compare_digest]

def tupleA : CertData := ⟨"a|b", "c", "d", "e"⟩

def tupleB : CertData := ⟨"a", "b|c", "d", "e"⟩

/-- C2 counterexample: `tupleB` differs from `tupleA` in two fields, yet the
pipe-joined canonical strings coincide (`a|b|c|d|e`), so verifying
`tupleA`'s signature against `tupleB` succeeds instead of failing. -/
theorem signature_collision_cex :
    tupleA ≠ tupleB ∧
      verify_signature tupleB (sign_certificate tupleA "k") "k" = true := by
  refine ⟨by decide, ?_⟩
  have hc : canonicalOf tupleA ++ "|" ++ "k" = canonicalOf tupleB ++ "|" ++ "k" := by
    decide
  have hs : sign_certificate tupleA "k" = sign_certificate tupleB "k" := by
    unfold sign_certificate
    exact congrArg sha256hex hc
  simp [verify_signature, compare_digest, hs]

/-- C2 (amended): verifying `sign_certificate(T, K)` against `T'` succeeds
exactly when the keyed SHA-256 digest of `T'`'s pipe-joined canonical string
equals that of `T`'s; tuples that differ in a field but produce the same
pipe-joined string (fields containing `|`) therefore verify successfully,
so failure is guaranteed only when the two keyed digests differ. -/
theorem signature_verify_iff_c2 (c c' : CertData) (k : String) :
    verify_signature c' (sign_certificate c k) k = true ↔
      sha256hex (canonicalOf c ++ "|" ++ k) = sha256hex (canonicalOf c' ++ "|" ++ k) := by
  simp [verify_signature, compare_digest, sign_certificate]

/-! ## String helpers

Structural (kernel-reducible) models of the Python string operations used by
the sources: `str.lower`, `str.strip`, substring containment (`in`), and
`basefont.split("+")[-1]`. -/

/-- Python `str.lower()`. -/
def lowerStr (s : String) : String := String.mk (s.data.map Char.toLower)

/-- Python `str.strip()`: drop leading and trailing whitespace. -/
def trimStr (s : String) : String :=
  String.mk (((s.data.dropWhile Char.isWhitespace).reverse.dropWhile
    Char.isWhitespace).reverse)

/-- Python `pat in l` on character lists. -/
def hasSub (pat : List Char) : List Char → Bool
  | [] => pat.isEmpty
  | c :: t => pat.isPrefixOf (c :: t) || hasSub pat t

/-- Python `"bold" in font_name.lower()` (bold inference in the extractor). -/
def hasBoldSub (s : String) : Bool := hasSub "bold".data (lowerStr s).data

/-- Python `"{{" in span["text"]` (marker-syntax test in alignment detection). -/
def hasBraces (s : String) : Bool := hasSub "\x7b\x7b".data s.data

/-- Python `basefont.split("+")[-1] if "+" in basefont else basefont`: the suffix
after the last `+` (subset-prefix stripping), or the whole name. -/
def cleanFontName (s : String) : String :=
  if hasSub ['+'] s.data then
    String.mk ((s.data.reverse.takeWhile (fun c => c ≠ '+')).reverse)
  else s

/-! ## Style extractor: `utils/placeholder_extractor.py`

A page's layout tree (`page.get_text("dict")`) is embedded as blocks of
lines of spans; each span carries text, bbox, real font size, packed RGB
color and font name.  Coordinates and sizes are `ℚ`, idealising the float
arithmetic of the source.  Font registration (`_register_embedded_fonts`)
talks to the PDF library, so the set of successfully registered logical
font names is a parameter. -/

/-- One style run (span) of the layout dict. -/
structure Span where
  text : String
  x0 : ℚ
  y0 : ℚ
  x1 : ℚ
  y1 : ℚ
  size : ℚ
  color : Nat
  font : String
deriving DecidableEq

structure TLine where
  spans : List Span
deriving DecidableEq

structure Block where
  btype : Nat
  lines : List TLine
deriving DecidableEq

structure Page where
  blocks : List Block
deriving DecidableEq

structure Rect where
  x0 : ℚ
  y0 : ℚ
  x1 : ℚ
  y1 : ℚ
deriving DecidableEq

def Rect.width (r : Rect) : ℚ := r.x1 - r.x0

/-- Extracted marker style record (the per-placeholder dict). -/
structure PlaceholderMeta where
  rect : Rect
  font_size : ℚ
  font_name : String
  color : ℚ × ℚ × ℚ
  is_bold : Bool
  embedded_font : String
deriving DecidableEq

/-- Regex word character for the pattern `\{\{(\w+)\}\}` (ASCII model). -/
def wordChar (c : Char) : Bool := c.isAlphanum || c == '_'

/-- Try to match `\{\{(\w+)\}\}` at the head of the character list; on
success return the captured word and the remainder after the match.  The
greedy `\w+` run is `takeWhile wordChar`, and the text after it
(`rest.drop w.length` in index terms) is `dropWhile wordChar`, which must
start with the two closing braces; regex backtracking can never succeed
here since a shortened run would face a word character, not a brace. -/
def matchAt : List Char → Option (List Char × List Char)
  | '\x7b' :: '\x7b' :: rest =>
    match rest.takeWhile wordChar, rest.dropWhile wordChar with
    | [], _ => none
    | w, '\x7d' :: '\x7d' :: after => some (w, after)
    | _, _ => none
  | _ => none

theorem matchAt_some {l w after} (h : matchAt l = some (w, after)) :
    l.length = w.length + 4 + after.length ∧ w ≠ [] := by
  unfold matchAt at h
  split at h
  · rename_i rest
    split at h
    · exact absurd h (by simp)
    · rename_i w' after' heq1 heq2
      injection h with h
      injection h with h1 h2
      subst h1; subst h2
      have hsplit : rest.takeWhile wordChar ++ rest.dropWhile wordChar = rest :=
        List.takeWhile_append_dropWhile wordChar rest
      rw [heq1] at hsplit
      have hlen := congrArg List.length hsplit
      simp only [List.length_append, List.length_cons] at hlen
      refine ⟨by simp only [List.length_cons]; omega, fun hw => heq2 hw⟩
    · exact absurd h (by simp)
  · exact absurd h (by simp)

/-- Model of `PLACEHOLDER_RE.finditer` over a character list: scan left to right,
non-overlapping, reporting `(start, end, captured_word)` with character
offsets.  Fuel-indexed structural recursion; fuel `≥` list length is exact. -/
def scanAux : Nat → List Char → Nat → List (Nat × Nat × List Char)
  | 0, _, _ => []
  | _, [], _ => []
  | fuel + 1, c :: cs, i =>
    match matchAt (c :: cs) with
    | some (w, after) => (i, i + w.length + 4, w) :: scanAux fuel after (i + w.length + 4)
    | none => scanAux fuel cs (i + 1)

def scanMatches (l : List Char) (i : Nat) : List (Nat × Nat × List Char) :=
  scanAux l.length l i

/-- The concatenated line text (`full_line_text`) as characters. -/
def lineChars (spans : List Span) : List Char :=
  (spans.map (fun s => s.text.data)).flatten

/-- The span map: `(start, end, span)` character-offset spans recorded while
concatenating the line (`span_map` in the source). -/
def spanMapFrom (off : Nat) : List Span → List (Nat × Nat × Span)
  | [] => []
  | sp :: rest => (off, off + sp.text.length, sp) :: spanMapFrom (off + sp.text.length) rest

/-- Python `s_end > match_start and s_start < match_end`. -/
def overlapsB (sSt sEn mSt mEn : Nat) : Bool := decide (mSt < sEn) && decide (sSt < mEn)

/-- Body of the span-scanning loop: append overlapping spans to
`bbox_spans`, set `style_span` on the first one. -/
def ovStep (mSt mEn : Nat) (acc : Option Span × List Span) (t : Nat × Nat × Span) :
    Option Span × List Span :=
  if overlapsB t.1 t.2.1 mSt mEn then
    (match acc.1 with
     | none => some t.2.2
     | some s => some s, acc.2 ++ [t.2.2])
  else acc

/-- The loop collecting `style_span` (first overlap) and `bbox_spans` (all
overlaps) for one match. -/
def collectOverlaps (spanMap : List (Nat × Nat × Span)) (mSt mEn : Nat) :
    Option Span × List Span :=
  spanMap.foldl (ovStep mSt mEn) (none, [])

/-- Declarative form: the overlapping spans, in scan order. -/
def overlapFilter (spanMap : List (Nat × Nat × Span)) (mSt mEn : Nat) : List Span :=
  (spanMap.filter (fun t => overlapsB t.1 t.2.1 mSt mEn)).map (fun t => t.2.2)

/-- Python `((raw >> 16) & 0xFF) / 255.0` and friends: unpack `span["color"]`. -/
def unpackColor (raw : Nat) : ℚ × ℚ × ℚ :=
  ((((raw >>> 16) &&& 255 : Nat) : ℚ) / 255,
   (((raw >>> 8) &&& 255 : Nat) : ℚ) / 255,
   ((raw &&& 255 : Nat) : ℚ) / 255)

/-- Model of `_pick_font`: the registered embedded font if available, else the
standard Helvetica variants. -/
def pickFont (embedded : String) (registered : List String) (isBold : Bool) : String :=
  let clean := cleanFontName embedded
  if registered.contains clean then clean
  else if isBold then "helv-bold" else "helv"

/-- Coordinate-wise union of the boxes of `b :: bs` (Python `min`/`max`
over `bbox_spans`). -/
def unionRect (b : Span) (bs : List Span) : Rect :=
  { x0 := (bs.map Span.x0).foldl min b.x0
    y0 := (bs.map Span.y0).foldl min b.y0
    x1 := (bs.map Span.x1).foldl max b.x1
    y1 := (bs.map Span.y1).foldl max b.y1 }

/-- Process one regex match: pick the style span and bbox spans, build the
marker record; `none` when no span overlaps (the drop branch).  The
`(some _, [])` case cannot arise (the style span is drawn from the bbox
list) and is mapped to `none`. -/
def processMatch (registered : List String) (spanMap : List (Nat × Nat × Span))
    (mSt mEn : Nat) : Option PlaceholderMeta :=
  match collectOverlaps spanMap mSt mEn with
  | (some sp, b :: bs) =>
    some { rect := unionRect b bs
           font_size := sp.size
           font_name := pickFont sp.font registered (hasBoldSub sp.font)
           color := unpackColor sp.color
           is_bold := hasBoldSub sp.font
           embedded_font := sp.font }
  | _ => none

/-- Python `match.group(1).lower()`. -/
def matchKey (m : Nat × Nat × List Char) : String := String.mk (m.2.2.map Char.toLower)

def containsKey (acc : List (String × PlaceholderMeta)) (k : String) : Bool :=
  acc.any (fun p => p.1 == k)

/-- Body of the per-match loop: skip already-recorded names, drop unstyled
matches, otherwise record the marker. -/
def phStep (registered : List String) (spanMap : List (Nat × Nat × Span))
    (acc : List (String × PlaceholderMeta)) (m : Nat × Nat × List Char) :
    List (String × PlaceholderMeta) :=
  if containsKey acc (matchKey m) then acc
  else
    match processMatch registered spanMap m.1 m.2.1 with
    | none => acc
    | some meta => acc ++ [(matchKey m, meta)]

/-- Per-line processing of `extract_placeholders`. -/
def processLine (registered : List String) (spans : List Span)
    (acc : List (String × PlaceholderMeta)) : List (String × PlaceholderMeta) :=
  (scanMatches (lineChars spans) 0).foldl (phStep registered (spanMapFrom 0 spans)) acc

/-- Model of `extract_placeholders`: fold over pages, text blocks and lines.  The
registered-font set is passed in (`_register_embedded_fonts` is PDF-library
I/O). -/
def extract_placeholders (registered : List String) (pages : List Page) :
    List (String × PlaceholderMeta) :=
  pages.foldl (fun acc pg =>
    pg.blocks.foldl (fun acc b =>
      if b.btype ≠ 0 then acc
      else b.lines.foldl (fun acc ln => processLine registered ln.spans acc) acc) acc) []

/-! ### Extractor lemmas -/

/-- First element of `st`, falling back to the head of `l`. -/
def optFirst (st : Option Span) (l : List Span) : Option Span :=
  match st with
  | some s => some s
  | none => l.head?

theorem collect_go (mSt mEn : Nat) (sm : List (Nat × Nat × Span)) :
    ∀ (st : Option Span) (bs : List Span),
      sm.foldl (ovStep mSt mEn) (st, bs) =
        (optFirst st (overlapFilter sm mSt mEn), bs ++ overlapFilter sm mSt mEn) := by
  induction sm with
  | nil => intro st bs; simp [overlapFilter, optFirst]; cases st <;> simp [optFirst]
  | cons t rest ih =>
    intro st bs
    simp only [List.foldl_cons]
    by_cases hov : overlapsB t.1 t.2.1 mSt mEn
    · cases st with
      | none =>
        simp only [ovStep, hov, if_true]
        rw [ih]
        simp [overlapFilter, hov, optFirst]
      | some s =>
        simp only [ovStep, hov, if_true]
        rw [ih]
        simp [overlapFilter, hov, optFirst]
    · simp only [ovStep, hov, if_false]
      rw [ih]
      simp [overlapFilter, hov]

/-- The loop's result in terms of the declarative overlap list: the style
span is the first overlapping span, the bbox spans are all of them. -/
theorem collectOverlaps_eq (sm : List (Nat × Nat × Span)) (mSt mEn : Nat) :
    collectOverlaps sm mSt mEn =
      ((overlapFilter sm mSt mEn).head?, overlapFilter sm mSt mEn) := by
  unfold collectOverlaps
  rw [collect_go]
  simp [optFirst]

theorem foldl_min_spec (l : List ℚ) : ∀ a : ℚ,
    (l.foldl min a = a ∨ l.foldl min a ∈ l) ∧ l.foldl min a ≤ a ∧
      ∀ y ∈ l, l.foldl min a ≤ y := by
  induction l with
  | nil => intro a; simp
  | cons b bs ih =>
    intro a
    simp only [List.foldl_cons]
    obtain ⟨hmem, hle, hall⟩ := ih (min a b)
    refine ⟨?_, le_trans hle (min_le_left a b), ?_⟩
    · rcases hmem with h | h
      · rcases min_choice a b with hc | hc
        · left; rw [h, hc]
        · right; rw [h, hc]; exact List.mem_cons_self b bs
      · right; exact List.mem_cons_of_mem _ h
    · intro y hy
      rcases List.mem_cons.mp hy with rfl | hy'
      · exact le_trans hle (min_le_right a y)
      · exact hall y hy'

theorem foldl_max_spec (l : List ℚ) : ∀ a : ℚ,
    (l.foldl max a = a ∨ l.foldl max a ∈ l) ∧ a ≤ l.foldl max a ∧
      ∀ y ∈ l, y ≤ l.foldl max a := by
  induction l with
  | nil => intro a; simp
  | cons b bs ih =>
    intro a
    simp only [List.foldl_cons]
    obtain ⟨hmem, hle, hall⟩ := ih (max a b)
    refine ⟨?_, le_trans (le_max_left a b) hle, ?_⟩
    · rcases hmem with h | h
      · rcases max_choice a b with hc | hc
        · left; rw [h, hc]
        · right; rw [h, hc]; exact List.mem_cons_self b bs
      · right; exact List.mem_cons_of_mem _ h
    · intro y hy
      rcases List.mem_cons.mp hy with rfl | hy'
      · exact le_trans (le_max_right a y) hle
      · exact hall y hy'

/-- C3: during extraction a marker name already recorded is skipped (first
occurrence wins); the style source (font size, color, font name, bold flag)
of a recorded marker is the first style run, in scan order, whose span
overlaps the match span; and the marker's rectangle is the coordinate-wise
union (min x0, min y0, max x1, max y1) of the boxes of all overlapping
runs. -/
theorem extract_first_wins_style_rect_c3
    (registered : List String) (spanMap : List (Nat × Nat × Span))
    (acc : List (String × PlaceholderMeta)) (m : Nat × Nat × List Char)
    (sp : Span) (rest : List Span)
    (hdup : containsKey acc (matchKey m) = true)
    (hov : overlapFilter spanMap m.1 m.2.1 = sp :: rest) :
    phStep registered spanMap acc m = acc
    ∧ collectOverlaps spanMap m.1 m.2.1 = (some sp, sp :: rest)
    ∧ ∃ meta, processMatch registered spanMap m.1 m.2.1 = some meta
        ∧ meta.font_size = sp.size
        ∧ meta.color = unpackColor sp.color
        ∧ meta.embedded_font = sp.font
        ∧ meta.is_bold = hasBoldSub sp.font
        ∧ meta.font_name = pickFont sp.font registered (hasBoldSub sp.font)
        ∧ (meta.rect.x0 ∈ (sp :: rest).map Span.x0 ∧
            ∀ v ∈ (sp :: rest).map Span.x0, meta.rect.x0 ≤ v)
        ∧ (meta.rect.y0 ∈ (sp :: rest).map Span.y0 ∧
            ∀ v ∈ (sp :: rest).map Span.y0, meta.rect.y0 ≤ v)
        ∧ (meta.rect.x1 ∈ (sp :: rest).map Span.x1 ∧
            ∀ v ∈ (sp :: rest).map Span.x1, v ≤ meta.rect.x1)
        ∧ (meta.rect.y1 ∈ (sp :: rest).map Span.y1 ∧
            ∀ v ∈ (sp :: rest).map Span.y1, v ≤ meta.rect.y1) := by
  have hco : collectOverlaps spanMap m.1 m.2.1 = (some sp, sp :: rest) := by
    rw [collectOverlaps_eq, hov]; rfl
  refine ⟨by simp [phStep, hdup], hco, ?_⟩
  refine ⟨{ rect := unionRect sp rest
            font_size := sp.size
            font_name := pickFont sp.font registered (hasBoldSub sp.font)
            color := unpackColor sp.color
            is_bold := hasBoldSub sp.font
            embedded_font := sp.font }, ?_, rfl, rfl, rfl, rfl, rfl, ?_, ?_, ?_, ?_⟩
  · unfold processMatch
    rw [hco]
  · obtain ⟨hmem, hle, hall⟩ := foldl_min_spec (rest.map Span.x0) sp.x0
    constructor
    · simp only [List.map_cons, unionRect]
      rcases hmem with h | h
      · rw [h]; exact List.mem_cons_self _ _
      · exact List.mem_cons_of_mem _ h
    · intro v hv
      rw [List.map_cons] at hv
      rcases List.mem_cons.mp hv with rfl | hv'
      · exact hle
      · exact hall v hv'
  · obtain ⟨hmem, hle, hall⟩ := foldl_min_spec (rest.map Span.y0) sp.y0
    constructor
    · simp only [List.map_cons, unionRect]
      rcases hmem with h | h
      · rw [h]; exact List.mem_cons_self _ _
      · exact List.mem_cons_of_mem _ h
    · intro v hv
      rw [List.map_cons] at hv
      rcases List.mem_cons.mp hv with rfl | hv'
      · exact hle
      · exact hall v hv'
  · obtain ⟨hmem, hle, hall⟩ := foldl_max_spec (rest.map Span.x1) sp.x1
    constructor
    · simp only [List.map_cons, unionRect]
      rcases hmem with h | h
      · rw [h]; exact List.mem_cons_self _ _
      · exact List.mem_cons_of_mem _ h
    · intro v hv
      rw [List.map_cons] at hv
      rcases List.mem_cons.mp hv with rfl | hv'
      · exact hle
      · exact hall v hv'
  · obtain ⟨hmem, hle, hall⟩ := foldl_max_spec (rest.map Span.y1) sp.y1
    constructor
    · simp only [List.map_cons, unionRect]
      rcases hmem with h | h
      · rw [h]; exact List.mem_cons_self _ _
      · exact List.mem_cons_of_mem _ h
    · intro v hv
      rw [List.map_cons] at hv
      rcases List.mem_cons.mp hv with rfl | hv'
      · exact hle
      · exact hall v hv'

/-- A concrete style run holding the marker text of `\x7b\x7bName\x7d\x7d`. -/
def spanW : Span :=
  { text := "\x7b\x7bName\x7d\x7d", x0 := 10, y0 := 20, x1 := 110, y1 := 40,
    size := 24, color := 255, font := "AAAAAA+Garet-Bold" }

def metaD : PlaceholderMeta :=
  { rect := ⟨0, 0, 0, 0⟩, font_size := 0, font_name := "", color := (0, 0, 0),
    is_bold := false, embedded_font := "" }

def accW : List (String × PlaceholderMeta) := [("name", metaD)]

def spanMapW : List (Nat × Nat × Span) := [(0, 8, spanW)]

def matchW : Nat × Nat × List Char := (0, 8, ['N', 'a', 'm', 'e'])

theorem extract_first_wins_style_rect_c3_witness :
    containsKey accW (matchKey matchW) = true
    ∧ overlapFilter spanMapW matchW.1 matchW.2.1 = spanW :: []
    ∧ (phStep [] spanMapW accW matchW = accW
       ∧ collectOverlaps spanMapW matchW.1 matchW.2.1 = (some spanW, spanW :: [])
       ∧ ∃ meta, processMatch [] spanMapW matchW.1 matchW.2.1 = some meta
           ∧ meta.font_size = spanW.size
           ∧ meta.color = unpackColor spanW.color
           ∧ meta.embedded_font = spanW.font
           ∧ meta.is_bold = hasBoldSub spanW.font
           ∧ meta.font_name = pickFont spanW.font [] (hasBoldSub spanW.font)
           ∧ (meta.rect.x0 ∈ (spanW :: []).map Span.x0 ∧
               ∀ v ∈ (spanW :: []).map Span.x0, meta.rect.x0 ≤ v)
           ∧ (meta.rect.y0 ∈ (spanW :: []).map Span.y0 ∧
               ∀ v ∈ (spanW :: []).map Span.y0, meta.rect.y0 ≤ v)
           ∧ (meta.rect.x1 ∈ (spanW :: []).map Span.x1 ∧
               ∀ v ∈ (spanW :: []).map Span.x1, v ≤ meta.rect.x1)
           ∧ (meta.rect.y1 ∈ (spanW :: []).map Span.y1 ∧
               ∀ v ∈ (spanW :: []).map Span.y1, v ≤ meta.rect.y1)) :=
  ⟨by decide, by rfl,
   extract_first_wins_style_rect_c3 [] spanMapW accW matchW spanW [] (by decide) (by rfl)⟩

theorem scanAux_bounds : ∀ (fuel : Nat) (l : List Char) (i : Nat)
    (m : Nat × Nat × List Char), l.length ≤ fuel → m ∈ scanAux fuel l i →
    i ≤ m.1 ∧ m.1 < m.2.1 ∧ m.2.1 ≤ i + l.length := by
  intro fuel
  induction fuel with
  | zero => intro l i m _ hm; simp [scanAux] at hm
  | succ n ih =>
    intro l i m hlen hm
    match l with
    | [] => simp [scanAux] at hm
    | c :: cs =>
      rw [scanAux] at hm
      cases hma : matchAt (c :: cs) with
      | none =>
        rw [hma] at hm
        have hb := ih cs (i + 1) m (by simp at hlen; omega) hm
        simp only [List.length_cons]
        omega
      | some p =>
        obtain ⟨w, after⟩ := p
        rw [hma] at hm
        obtain ⟨hl, -⟩ := matchAt_some hma
        rcases List.mem_cons.mp hm with heq | hm'
        · subst heq
          simp only []
          omega
        · have hafter : after.length ≤ n := by
            simp only [List.length_cons] at hl hlen; omega
          have hb := ih after (i + w.length + 4) m hafter hm'
          omega

/-- The span offsets recorded by the concatenation loop tile the
concatenated string: every character position lies in some span's
`[start, end)` interval. -/
theorem spanMapFrom_cover : ∀ (spans : List Span) (off pos : Nat),
    off ≤ pos → pos < off + (spans.map (fun s => s.text.length)).sum →
    ∃ t ∈ spanMapFrom off spans, t.1 ≤ pos ∧ pos < t.2.1 := by
  intro spans
  induction spans with
  | nil => intro off pos h1 h2; simp at h2; omega
  | cons sp rest ih =>
    intro off pos h1 h2
    by_cases hc : pos < off + sp.text.length
    · exact ⟨(off, off + sp.text.length, sp), by simp [spanMapFrom], h1, hc⟩
    · have h2' : pos < (off + sp.text.length) +
          (rest.map (fun s => s.text.length)).sum := by
        simp only [List.map_cons, List.sum_cons] at h2; omega
      obtain ⟨t, ht, hb⟩ := ih (off + sp.text.length) pos (by omega) h2'
      exact ⟨t, by simp [spanMapFrom, ht], hb⟩

theorem lineChars_length (spans : List Span) :
    (lineChars spans).length = (spans.map (fun s => s.text.length)).sum := by
  unfold lineChars
  rw [List.length_flatten, List.map_map]
  rfl

/-- Every regex match over the concatenated line text overlaps at least one
recorded span. -/
theorem scan_overlap_exists (spans : List Span) (m : Nat × Nat × List Char)
    (hm : m ∈ scanMatches (lineChars spans) 0) :
    ∃ t ∈ spanMapFrom 0 spans, overlapsB t.1 t.2.1 m.1 m.2.1 = true := by
  have hb := scanAux_bounds (lineChars spans).length (lineChars spans) 0 m le_rfl hm
  have hcov := spanMapFrom_cover spans 0 m.1 (Nat.zero_le _)
    (by rw [← lineChars_length]; omega)
  obtain ⟨t, ht, h1, h2⟩ := hcov
  refine ⟨t, ht, ?_⟩
  simp only [overlapsB, Bool.and_eq_true, decide_eq_true_eq]
  omega

theorem processMatch_isSome_of_overlap (registered : List String)
    (sm : List (Nat × Nat × Span)) (mSt mEn : Nat)
    (h : ∃ t ∈ sm, overlapsB t.1 t.2.1 mSt mEn = true) :
    (processMatch registered sm mSt mEn).isSome = true := by
  obtain ⟨t, ht, hov⟩ := h
  have hmem : t.2.2 ∈ overlapFilter sm mSt mEn := by
    simp only [overlapFilter, List.mem_map]
    exact ⟨t, List.mem_filter.mpr ⟨ht, hov⟩, rfl⟩
  obtain ⟨b, bs, hcons⟩ := List.exists_cons_of_ne_nil
    (List.ne_nil_of_mem hmem)
  unfold processMatch
  rw [collectOverlaps_eq, hcons]
  rfl

theorem phStep_mono (registered : List String) (sm : List (Nat × Nat × Span))
    (acc : List (String × PlaceholderMeta)) (m : Nat × Nat × List Char)
    (k : String) (h : containsKey acc k = true) :
    containsKey (phStep registered sm acc m) k = true := by
  unfold phStep
  split
  · exact h
  · split
    · exact h
    · simp only [containsKey, List.any_append]
      simp only [containsKey] at h
      rw [h]
      rfl

theorem phStep_records (registered : List String) (sm : List (Nat × Nat × Span))
    (acc : List (String × PlaceholderMeta)) (m : Nat × Nat × List Char)
    (h : (processMatch registered sm m.1 m.2.1).isSome = true) :
    containsKey (phStep registered sm acc m) (matchKey m) = true := by
  unfold phStep
  split
  · assumption
  · cases hpm : processMatch registered sm m.1 m.2.1 with
    | none => rw [hpm] at h; simp at h
    | some meta => simp [containsKey]

theorem foldl_phStep_mono (registered : List String) (sm : List (Nat × Nat × Span))
    (k : String) : ∀ (ms : List (Nat × Nat × List Char))
    (acc : List (String × PlaceholderMeta)), containsKey acc k = true →
    containsKey (ms.foldl (phStep registered sm) acc) k = true := by
  intro ms
  induction ms with
  | nil => intro acc h; exact h
  | cons m rest ih =>
    intro acc h
    exact ih _ (phStep_mono registered sm acc m k h)

theorem foldl_phStep_records (registered : List String) (sm : List (Nat × Nat × Span)) :
    ∀ (ms : List (Nat × Nat × List Char)) (acc : List (String × PlaceholderMeta))
    (m : Nat × Nat × List Char), m ∈ ms →
    (processMatch registered sm m.1 m.2.1).isSome = true →
    containsKey (ms.foldl (phStep registered sm) acc) (matchKey m) = true := by
  intro ms
  induction ms with
  | nil => intro acc m hm; simp at hm
  | cons m0 rest ih =>
    intro acc m hm hsome
    rcases List.mem_cons.mp hm with rfl | hm'
    · exact foldl_phStep_mono registered sm (matchKey m) rest _
        (phStep_records registered sm acc m hsome)
    · exact ih _ m hm' hsome

/-- C10: every regex match found in a line's concatenated text overlaps at
least one recorded span (the spans' offsets tile the concatenation and a
match is non-empty), so the drop branch for a style-less marker is never
taken and every match's key is present in the per-line result map. -/
theorem match_always_recorded_c10 (registered : List String) (spans : List Span)
    (acc : List (String × PlaceholderMeta)) (m : Nat × Nat × List Char)
    (hm : m ∈ scanMatches (lineChars spans) 0) :
    (processMatch registered (spanMapFrom 0 spans) m.1 m.2.1).isSome = true
    ∧ containsKey (processLine registered spans acc) (matchKey m) = true := by
  have hsome := processMatch_isSome_of_overlap registered (spanMapFrom 0 spans)
    m.1 m.2.1 (scan_overlap_exists spans m hm)
  exact ⟨hsome, foldl_phStep_records registered (spanMapFrom 0 spans)
    (scanMatches (lineChars spans) 0) acc m hm hsome⟩

theorem match_always_recorded_c10_witness :
    matchW ∈ scanMatches (lineChars [spanW]) 0
    ∧ ((processMatch [] (spanMapFrom 0 [spanW]) matchW.1 matchW.2.1).isSome = true
       ∧ containsKey (processLine [] [spanW] []) (matchKey matchW) = true) :=
  ⟨by decide, match_always_recorded_c10 [] [spanW] [] matchW (by decide)⟩

/-! ## Layout inference: `_detect_alignment` in `utils/certificate_generator.py`

A pure function of the page layout dict (blocks of lines of spans), the
marker rectangle and its font size.  The float constants 2.5, 5.0 and 0.4
are idealised as the rationals 5/2, 5 and 2/5. -/

/-- Membership test of the span-collection loop: not marker syntax, and the
vertical centre lies strictly within `font_size * 2.5` of the marker's. -/
def nearbyPred (rect : Rect) (fontSize : ℚ) (sp : Span) : Bool :=
  !hasBraces sp.text &&
    decide (|(sp.y0 + sp.y1) / 2 - (rect.y0 + rect.y1) / 2| < fontSize * (5 / 2))

/-- Innermost loop body of `_detect_alignment`. -/
def spStep (rect : Rect) (fontSize : ℚ) (acc : List ℚ) (sp : Span) : List ℚ :=
  if hasBraces sp.text then acc
  else if |(sp.y0 + sp.y1) / 2 - (rect.y0 + rect.y1) / 2| < fontSize * (5 / 2) then
    acc ++ [sp.x0]
  else acc

def lineStep (rect : Rect) (fontSize : ℚ) (acc : List ℚ) (ln : TLine) : List ℚ :=
  ln.spans.foldl (spStep rect fontSize) acc

def blockStep (rect : Rect) (fontSize : ℚ) (acc : List ℚ) (b : Block) : List ℚ :=
  if b.btype ≠ 0 then acc else b.lines.foldl (lineStep rect fontSize) acc

/-- The list `nearby_x0s` as accumulated by the source's nested loops. -/
def nearbyX0s (blocks : List Block) (rect : Rect) (fontSize : ℚ) : List ℚ :=
  blocks.foldl (blockStep rect fontSize) []

/-- Model of `_detect_alignment(page, placeholder_rect, font_size)`. -/
def detect_alignment (blocks : List Block) (rect : Rect) (fontSize : ℚ) : String :=
  let nearby := nearbyX0s blocks rect fontSize
  if nearby = [] then "left"
  else
    let cnt := (nearby.filter (fun x => |x - rect.x0| < 5)).length
    if (cnt : ℚ) > (nearby.length : ℚ) * (2 / 5) then "left" else "center"

/-- All style runs of the page's text blocks, in scan order. -/
def pageSpans (blocks : List Block) : List Span :=
  ((blocks.filter (fun b => b.btype == 0)).map (fun b =>
    (b.lines.map TLine.spans).flatten)).flatten

/-- The nearby x0 list as the claim words it: the x0 of every style run on
the page passing `nearbyPred`. -/
def nearbySpec (blocks : List Block) (rect : Rect) (fontSize : ℚ) : List ℚ :=
  ((pageSpans blocks).filter (nearbyPred rect fontSize)).map Span.x0

theorem spStep_go (rect : Rect) (fontSize : ℚ) :
    ∀ (sps : List Span) (acc : List ℚ),
      sps.foldl (spStep rect fontSize) acc =
        acc ++ (sps.filter (nearbyPred rect fontSize)).map Span.x0 := by
  intro sps
  induction sps with
  | nil => intro acc; simp
  | cons sp rest ih =>
    intro acc
    simp only [List.foldl_cons]
    rw [ih]
    by_cases hb : hasBraces sp.text
    · simp [spStep, hb, nearbyPred]
    · by_cases hd : |(sp.y0 + sp.y1) / 2 - (rect.y0 + rect.y1) / 2| < fontSize * (5 / 2)
      · simp [spStep, hb, hd, nearbyPred]
      · simp [spStep, hb, hd, nearbyPred]

theorem lineStep_go (rect : Rect) (fontSize : ℚ) :
    ∀ (lns : List TLine) (acc : List ℚ),
      lns.foldl (lineStep rect fontSize) acc =
        acc ++ (((lns.map TLine.spans).flatten).filter (nearbyPred rect fontSize)).map Span.x0 := by
  intro lns
  induction lns with
  | nil => intro acc; simp
  | cons ln rest ih =>
    intro acc
    simp only [List.foldl_cons, List.map_cons, List.flatten_cons]
    rw [lineStep, spStep_go, ih, List.filter_append, List.map_append, List.append_assoc]

theorem nearbyX0s_eq_spec (blocks : List Block) (rect : Rect) (fontSize : ℚ) :
    nearbyX0s blocks rect fontSize = nearbySpec blocks rect fontSize := by
  suffices h : ∀ (bs : List Block) (acc : List ℚ),
      bs.foldl (blockStep rect fontSize) acc =
        acc ++ ((pageSpans bs).filter (nearbyPred rect fontSize)).map Span.x0 by
    simpa [nearbyX0s, nearbySpec] using h blocks []
  intro bs
  induction bs with
  | nil => intro acc; simp [pageSpans]
  | cons b rest ih =>
    intro acc
    simp only [List.foldl_cons]
    by_cases hb : b.btype = 0
    · rw [blockStep, if_neg (by simp [hb]), lineStep_go, ih]
      simp only [pageSpans, List.filter_cons, hb]
      simp [List.filter_append, List.append_assoc]
    · rw [blockStep, if_pos hb, ih]
      simp only [pageSpans, List.filter_cons]
      simp [hb]

/-- C6: alignment inference returns left or center exactly as specified:
collect the x0 of every style run on the page whose vertical centre is
strictly within `font_size * 2.5` points of the marker's vertical centre,
excluding runs containing marker syntax; with no such run the result is
left; otherwise left exactly when the number of nearby runs whose x0 is
strictly within 5 points of the marker's x0 strictly exceeds 40 percent of
the nearby-run count, and center otherwise. -/
theorem alignment_inference_c6 (blocks : List Block) (rect : Rect) (fontSize : ℚ) :
    detect_alignment blocks rect fontSize =
      (if nearbySpec blocks rect fontSize = [] then "left"
       else if ((((nearbySpec blocks rect fontSize).filter
                (fun x => |x - rect.x0| < 5)).length : ℚ) >
              ((nearbySpec blocks rect fontSize).length : ℚ) * (2 / 5)) then "left"
       else "center") := by
  unfold detect_alignment
  rw [nearbyX0s_eq_spec]

/-! ## Substitution engine: `generate_certificate` marker loop
(`src/utils/certificate_generator.py`, lines 103-170)

Page mutation is embedded as the list of page operations emitted (redact
annotations applied, text insertions).  The external capabilities — the
page layout as seen after the operations applied so far, background pixel
sampling, and `fitz.get_text_length` — are parameters of the environment.
The per-marker `try` that wraps substitution raises a tagged error; the
exceptional paths of the external measurement call are not modelled (the
measure function is total). -/

inductive PageOp
  | redact (r : Rect) (fill : ℚ × ℚ × ℚ)
  | insertText (x y : ℚ) (text : String) (size : ℚ) (font : String)
      (color : ℚ × ℚ × ℚ)
deriving DecidableEq

structure GenEnv where
  pageWidth : ℚ
  spansOf : List PageOp → List Block
  bgOf : List PageOp → Rect → ℚ × ℚ × ℚ
  measure : String → ℚ → String → ℚ

/-- Python `col_lookup = { col.strip().lower(): val ... }` followed by membership
and indexing: dict-comprehension semantics, later duplicates overwrite. -/
def colLookupVal (rowData : List (String × String)) (key : String) : Option String :=
  rowData.foldl (fun acc p =>
    if lowerStr (trimStr p.1) == key then some p.2 else acc) none

/-- Python `max_width = page_width * 0.85 - rect.x0`. -/
def availWidth (pageWidth x0 : ℚ) : ℚ := pageWidth * (85 / 100) - x0

/-- The shrink-to-fit loop (`for _ in range(n)`), returning the final
`(current_size, text_width)`. -/
def shrinkLoop (measureV : ℚ → ℚ) (maxW : ℚ) : Nat → ℚ → ℚ → ℚ × ℚ
  | 0, size, width => (size, width)
  | n + 1, size, width =>
    if width ≤ maxW then (size, width)
    else shrinkLoop measureV maxW n (size * (93 / 100)) (measureV (size * (93 / 100)))

/-- The trace of sizes produced by the shrink steps, in order. -/
def shrinkSizes (measureV : ℚ → ℚ) (maxW : ℚ) : Nat → ℚ → ℚ → List ℚ
  | 0, _, _ => []
  | n + 1, size, width =>
    if width ≤ maxW then []
    else size * (93 / 100) ::
      shrinkSizes measureV maxW n (size * (93 / 100)) (measureV (size * (93 / 100)))

/-- One marker's substitution: skip when no column matches or the value is
empty/NaN; otherwise detect alignment and background, shrink to fit,
place, and emit redact-then-insert. -/
def substituteMarker (env : GenEnv) (rowData : List (String × String))
    (ops : List PageOp) (key : String) (meta : PlaceholderMeta) : List PageOp :=
  match colLookupVal rowData key with
  | none => ops
  | some raw =>
    let value := trimStr raw
    if value == "" || lowerStr value == "nan" then ops
    else
      let rect := meta.rect
      let fontSize := meta.font_size
      let fontName := meta.font_name
      let alignment := detect_alignment (env.spansOf ops) rect fontSize
      let bg := env.bgOf ops rect
      let w0 := env.measure value fontSize fontName
      let maxW := availWidth env.pageWidth rect.x0
      let sw := shrinkLoop (fun sz => env.measure value sz fontName) maxW 30 fontSize w0
      let x :=
        if alignment == "left" then rect.x0
        else
          let xc := rect.x0 + (rect.width - sw.2) / 2
          if xc < 0 ∨ xc + sw.2 > env.pageWidth then rect.x0 else xc
      let y := rect.y0 + sw.1 * (78 / 100)
      let redactRect : Rect := ⟨rect.x0 - 1, rect.y0 - 1, rect.x1 + 1, rect.y1 + 1⟩
      ops ++ [PageOp.redact redactRect bg,
              PageOp.insertText x y value sw.1 fontName meta.color]

/-- The marker loop of `generate_certificate`: fold over the placeholder
map, emitting page operations. -/
def generateOps (env : GenEnv) (rowData : List (String × String))
    (markers : List (String × PlaceholderMeta)) : List PageOp :=
  markers.foldl (fun ops km => substituteMarker env rowData ops km.1 km.2) []

/-! ### Shrink-loop lemmas (C4) -/

theorem shrinkSizes_length (measureV : ℚ → ℚ) (maxW : ℚ) :
    ∀ (n : Nat) (size width : ℚ), (shrinkSizes measureV maxW n size width).length ≤ n := by
  intro n
  induction n with
  | zero => intro size width; simp [shrinkSizes]
  | succ k ih =>
    intro size width
    rw [shrinkSizes]
    split
    · simp
    · simpa [Nat.succ_le_succ] using Nat.succ_le_succ (ih _ _)

theorem shrinkSizes_chain_mul (measureV : ℚ → ℚ) (maxW : ℚ) :
    ∀ (n : Nat) (size width : ℚ),
      List.Chain' (fun a b => b = a * (93 / 100))
        (size :: shrinkSizes measureV maxW n size width) := by
  intro n
  induction n with
  | zero => intro size width; simp [shrinkSizes]
  | succ k ih =>
    intro size width
    rw [shrinkSizes]
    split
    · simp
    · exact List.Chain'.cons rfl (ih _ _)

theorem shrinkSizes_chain_le (measureV : ℚ → ℚ) (maxW : ℚ) :
    ∀ (n : Nat) (size width : ℚ), 0 < size →
      List.Chain' (fun a b => b ≤ a)
        (size :: shrinkSizes measureV maxW n size width) := by
  intro n
  induction n with
  | zero => intro size width _; simp [shrinkSizes]
  | succ k ih =>
    intro size width hpos
    rw [shrinkSizes]
    split
    · simp
    · refine List.Chain'.cons ?_ (ih _ _ (by positivity))
      nlinarith

theorem shrinkLoop_final (measureV : ℚ → ℚ) (maxW : ℚ) :
    ∀ (n : Nat) (size width : ℚ),
      (shrinkLoop measureV maxW n size width).1 =
        size * (93 / 100) ^ (shrinkSizes measureV maxW n size width).length := by
  intro n
  induction n with
  | zero => intro size width; simp [shrinkLoop, shrinkSizes]
  | succ k ih =>
    intro size width
    rw [shrinkLoop, shrinkSizes]
    split
    · simp
    · rw [ih]
      rw [List.length_cons, pow_succ]
      ring

/-- C4: for every positive starting size the shrink loop performs at most
30 reduction steps, the size never increases from one step to the next,
each reduction multiplies the size by 0.93 exactly (so the final size is
`size * 0.93 ^ k` with `k ≤ 30`), and the width bound used by
`generate_certificate` is `0.85 * page_width - rect.x0`. -/
theorem shrink_to_fit_c4 (measureV : ℚ → ℚ) (maxW size width : ℚ)
    (hpos : 0 < size) :
    (shrinkSizes measureV maxW 30 size width).length ≤ 30
    ∧ List.Chain' (fun a b => b ≤ a)
        (size :: shrinkSizes measureV maxW 30 size width)
    ∧ List.Chain' (fun a b => b = a * (93 / 100))
        (size :: shrinkSizes measureV maxW 30 size width)
    ∧ (shrinkLoop measureV maxW 30 size width).1 =
        size * (93 / 100) ^ (shrinkSizes measureV maxW 30 size width).length
    ∧ (∀ pw x0 : ℚ, availWidth pw x0 = pw * (85 / 100) - x0) :=
  ⟨shrinkSizes_length measureV maxW 30 size width,
   shrinkSizes_chain_le measureV maxW 30 size width hpos,
   shrinkSizes_chain_mul measureV maxW 30 size width,
   shrinkLoop_final measureV maxW 30 size width,
   fun _ _ => rfl⟩

theorem shrink_to_fit_c4_witness :
    (0 : ℚ) < 2
    ∧ ((shrinkSizes (fun _ => 0) 0 30 2 5).length ≤ 30
       ∧ List.Chain' (fun a b => b ≤ a) ((2 : ℚ) :: shrinkSizes (fun _ => 0) 0 30 2 5)
       ∧ List.Chain' (fun a b => b = a * (93 / 100))
           ((2 : ℚ) :: shrinkSizes (fun _ => 0) 0 30 2 5)
       ∧ (shrinkLoop (fun _ => 0) 0 30 2 5).1 =
           2 * (93 / 100) ^ (shrinkSizes (fun _ => 0) 0 30 2 5).length
       ∧ (∀ pw x0 : ℚ, availWidth pw x0 = pw * (85 / 100) - x0)) :=
  ⟨by norm_num, shrink_to_fit_c4 (fun _ => 0) 0 2 5 (by norm_num)⟩

/-! ### Empty/NaN skip (C5) -/

/-- C5: a marker whose matched column value trims to the empty string or to
the literal token nan (case-insensitively) produces no redaction and no
text insertion: the emitted operation list is unchanged at that marker, it
is not an error, and the remaining markers are processed exactly as if the
marker were absent. -/
theorem empty_nan_skip_c5 (env : GenEnv) (rowData : List (String × String))
    (ops : List PageOp) (pre post : List (String × PlaceholderMeta))
    (key : String) (meta : PlaceholderMeta) (raw : String)
    (hfind : colLookupVal rowData key = some raw)
    (hskip : trimStr raw = "" ∨ lowerStr (trimStr raw) = "nan") :
    substituteMarker env rowData ops key meta = ops
    ∧ generateOps env rowData (pre ++ (key, meta) :: post) =
        generateOps env rowData (pre ++ post) := by
  have hstep : ∀ ops' : List PageOp, substituteMarker env rowData ops' key meta = ops' := by
    intro ops'
    unfold substituteMarker
    rw [hfind]
    have hcond : (trimStr raw == "" || lowerStr (trimStr raw) == "nan") = true := by
      rcases hskip with h | h <;> simp [h]
    simp only [hcond, if_true]
  refine ⟨hstep ops, ?_⟩
  unfold generateOps
  rw [List.foldl_append, List.foldl_append, List.foldl_cons, hstep]

def rowW : List (String × String) := [("Name", " "), ("Course", "nan")]

def envW : GenEnv :=
  { pageWidth := 612
    spansOf := fun _ => []
    bgOf := fun _ _ => (1, 1, 1)
    measure := fun _ _ _ => 0 }

theorem empty_nan_skip_c5_witness :
    colLookupVal rowW "name" = some " "
    ∧ (trimStr " " = "" ∨ lowerStr (trimStr " ") = "nan")
    ∧ (substituteMarker envW rowW [] "name" metaD = []
       ∧ generateOps envW rowW ([] ++ ("name", metaD) :: [("course", metaD)]) =
           generateOps envW rowW ([] ++ [("course", metaD)])) :=
  ⟨by decide, Or.inl (by decide),
   empty_nan_skip_c5 envW rowW [] [] [("course", metaD)] "name" metaD " "
     (by decide) (Or.inl (by decide))⟩

/-! ## Batch orchestrator: the row loop of `generate` in `src/app.py`

The body of one row's iteration (filename derivation, signing, PDF
generation, ledger insert, existence check) performs I/O; its outcome is
abstracted: the row either succeeds (PDF created and archived), completes
without a PDF on disk (`PDF not created` error recorded), or raises (error
recorded, row skipped).  The loop structure, the error bookkeeping and the
final zero-success check are embedded from the source. -/

inductive RowOutcome
  | ok
  | noPdf (fname : String)
  | raised (msg : String)
deriving DecidableEq

def RowOutcome.isOk : RowOutcome → Bool
  | .ok => true
  | _ => false

/-- The error strings recorded for one row at index `idx` (0-based; the
messages use the 1-based row number as in the source). -/
def rowErr (idx : Nat) : RowOutcome → List String
  | .ok => []
  | .noPdf f => ["Row " ++ toString (idx + 1) ++ " (" ++ f ++ "): PDF not created"]
  | .raised m => ["Row " ++ toString (idx + 1) ++ ": " ++ m]

/-- The loop over `enumerate(df.iterrows())`: accumulate `success_count`
and `errors`. -/
def batchLoop (outcomes : List RowOutcome) : Nat × List String :=
  (outcomes.enum).foldl
    (fun acc p => (acc.1 + (if p.2.isOk then 1 else 0), acc.2 ++ rowErr p.1 p.2))
    (0, [])

inductive BatchResult
  | errorResp (msg : String)
  | zipResp (warnings : List String)
deriving DecidableEq

/-- The post-loop check: `if success_count == 0` return the error response
(first three errors quoted), otherwise send the ZIP (with the collected
errors as warnings). -/
def batchResponse (outcomes : List RowOutcome) : BatchResult :=
  let r := batchLoop outcomes
  if r.1 = 0 then
    .errorResp ("Failed to generate any certificates." ++
      (if r.2.isEmpty then "" else " Errors: " ++ String.intercalate " | " (r.2.take 3)))
  else .zipResp r.2

/-- Declarative success count. -/
def countOk (outcomes : List RowOutcome) : Nat :=
  (outcomes.filter RowOutcome.isOk).length

/-- Declarative error list: each non-success contributes its message tagged
with its row index, in row order. -/
def allErrorsFrom (idx : Nat) : List RowOutcome → List String
  | [] => []
  | o :: rest => rowErr idx o ++ allErrorsFrom (idx + 1) rest

def allErrors (outcomes : List RowOutcome) : List String := allErrorsFrom 0 outcomes

def fatalMsg (outcomes : List RowOutcome) : String :=
  "Failed to generate any certificates." ++
    (if (allErrors outcomes).isEmpty then ""
     else " Errors: " ++ String.intercalate " | " ((allErrors outcomes).take 3))

theorem batchLoop_go : ∀ (l : List RowOutcome) (i : Nat) (n : Nat) (es : List String),
    (l.enumFrom i).foldl
      (fun acc p => (acc.1 + (if p.2.isOk then 1 else 0), acc.2 ++ rowErr p.1 p.2))
      (n, es) = (n + countOk l, es ++ allErrorsFrom i l) := by
  intro l
  induction l with
  | nil => intro i n es; simp [countOk, allErrorsFrom]
  | cons o rest ih =>
    intro i n es
    simp only [List.enumFrom, List.foldl_cons]
    rw [ih]
    cases o with
    | ok =>
      simp [countOk, allErrorsFrom, rowErr, RowOutcome.isOk]
      omega
    | noPdf f =>
      simp [countOk, allErrorsFrom, rowErr, RowOutcome.isOk, List.append_assoc]
    | raised m =>
      simp [countOk, allErrorsFrom, rowErr, RowOutcome.isOk, List.append_assoc]

/-- C7: every non-success outcome of a row is recorded with that row's
index while the loop continues (the loop result is exactly the success
count and the index-tagged error list in row order), and the batch returns
the error response precisely when zero rows succeeded — otherwise the
archive is returned even when some rows failed. -/
theorem batch_partial_failure_c7 (outcomes : List RowOutcome) :
    batchLoop outcomes = (countOk outcomes, allErrors outcomes)
    ∧ batchResponse outcomes =
        (if countOk outcomes = 0 then BatchResult.errorResp (fatalMsg outcomes)
         else BatchResult.zipResp (allErrors outcomes))
    ∧ ((∃ msg, batchResponse outcomes = BatchResult.errorResp msg) ↔
        countOk outcomes = 0) := by
  have hloop : batchLoop outcomes = (countOk outcomes, allErrors outcomes) := by
    unfold batchLoop allErrors
    have := batchLoop_go outcomes 0 0 []
    simpa [List.enum] using this
  refine ⟨hloop, ?_, ?_⟩
  · unfold batchResponse fatalMsg
    rw [hloop]
  · constructor
    · rintro ⟨msg, hmsg⟩
      by_contra hne
      unfold batchResponse at hmsg
      rw [hloop] at hmsg
      simp only [hne, if_false] at hmsg
      exact absurd hmsg (by simp)
    · intro hz
      refine ⟨fatalMsg outcomes, ?_⟩
      unfold batchResponse fatalMsg
      rw [hloop]
      simp [hz]

/-! ## Document lifetime: C8

Control-flow skeletons of the three functions that open a `fitz` document,
recording open/close events.  `generate_certificate` in
`src/utils/certificate_generator.py` wraps its body in
`try/except/finally` with `doc.close()` in the `finally` (and `doc = None`
before the `try`, so a failing open closes nothing); `extract_placeholders`
and the CertifyFast2-main `generate_certificate` call `doc.close()` only on
the straight-line path, so an exception raised by the body propagates with
the document still open.  The body outcome is abstracted as a parameter. -/

inductive DocEvent
  | opened
  | closed
deriving DecidableEq, BEq

/-- Skeleton of `src/utils/certificate_generator.py`: try/except-wrap/finally-close. -/
def genCertTrace (openResult body : Except String Unit) :
    List DocEvent × Except String Unit :=
  match openResult with
  | .error e => ([], .error ("Certificate generation failed: " ++ e))
  | .ok _ =>
    match body with
    | .ok _ => ([.opened, .closed], .ok ())
    | .error e => ([.opened, .closed], .error ("Certificate generation failed: " ++ e))

/-- Skeleton of `CertifyFast2-main/utils/certificate_generator.py`: close only after a
successful body. -/
def genCertTraceV2 (openResult body : Except String Unit) :
    List DocEvent × Except String Unit :=
  match openResult with
  | .error e => ([], .error e)
  | .ok _ =>
    match body with
    | .ok _ => ([.opened, .closed], .ok ())
    | .error e => ([.opened], .error e)

/-- Skeleton of `utils/placeholder_extractor.py` (both variants): `doc.close()` only on
the straight-line path. -/
def extractTrace (openResult body : Except String Unit) :
    List DocEvent × Except String Unit :=
  match openResult with
  | .error e => ([], .error e)
  | .ok _ =>
    match body with
    | .ok _ => ([.opened, .closed], .ok ())
    | .error e => ([.opened], .error e)

/-- Every opened document is closed. -/
def balanced (t : List DocEvent) : Bool :=
  t.count DocEvent.opened == t.count DocEvent.closed

def isOkE : Except String Unit → Bool
  | .ok _ => true
  | .error _ => false

/-- C8 counterexample: an exception raised while extracting (after the
document was opened) exits `extract_placeholders` with one opened event and
no closed event — the document is not closed on that exit path. -/
theorem document_close_cex :
    (extractTrace (Except.ok ()) (Except.error "boom")).1.count DocEvent.opened = 1
    ∧ (extractTrace (Except.ok ()) (Except.error "boom")).1.count DocEvent.closed = 0
    ∧ (extractTrace (Except.ok ()) (Except.error "boom")).2 =
        Except.error "boom" := by
  refine ⟨rfl, rfl, rfl⟩

/-- C8 (amended): `generate_certificate` in `src/utils` closes its document
on every exit path (success, per-marker failure, any other exception) via
its `finally`; but `extract_placeholders` and the CertifyFast2-main
`generate_certificate` close the document only when the body completes
normally — an exception during extraction or substitution propagates with
the document left open. -/
theorem document_close_amended_c8 (openResult body : Except String Unit) :
    balanced (genCertTrace openResult body).1 = true
    ∧ balanced (extractTrace openResult body).1 = (!isOkE openResult || isOkE body)
    ∧ balanced (genCertTraceV2 openResult body).1 = (!isOkE openResult || isOkE body) := by
  cases openResult with
  | error e => cases body <;> exact ⟨rfl, rfl, rfl⟩
  | ok u =>
    cases body with
    | error e => exact ⟨rfl, rfl, rfl⟩
    | ok v => exact ⟨rfl, rfl, rfl⟩

/-! ## Column-to-placeholder mapping: `_compute_mapping` in `src/app.py` -/

/-- Python `col_map = { col.strip().lower(): col for col in df_columns }` followed
by lookup: later duplicates overwrite. -/
def colMapLookup (cols : List String) (key : String) : Option String :=
  cols.foldl (fun acc c => if lowerStr (trimStr c) == key then some c else acc) none

/-- Model of `_compute_mapping(df_columns, placeholder_keys)`: the loop appending
matched pairs and recording matched keys, then the unmatched
comprehension. -/
def compute_mapping (cols keys : List String) :
    List (String × String) × List String :=
  let mm := keys.foldl
    (fun (acc : List (String × String) × List String) key =>
      match colMapLookup cols key with
      | some c => (acc.1 ++ [(key, c)], acc.2 ++ [key])
      | none => acc) ([], [])
  (mm.1, keys.filter (fun k => ¬ mm.2.contains k))

theorem colMapLookup_go (key : String) :
    ∀ (cols : List String) (acc : Option String) (c : String),
      cols.foldl (fun acc c => if lowerStr (trimStr c) == key then some c else acc) acc
        = some c →
      acc = some c ∨ (lowerStr (trimStr c) = key ∧ c ∈ cols) := by
  intro cols
  induction cols with
  | nil => intro acc c h; exact Or.inl h
  | cons c0 rest ih =>
    intro acc c h
    simp only [List.foldl_cons] at h
    rcases ih _ c h with hstep | ⟨hkey, hmem⟩
    · by_cases hk : lowerStr (trimStr c0) == key
      · rw [if_pos hk] at hstep
        injection hstep with hstep
        subst hstep
        exact Or.inr ⟨by simpa using hk, List.mem_cons_self _ _⟩
      · rw [if_neg hk] at hstep
        exact Or.inl hstep
    · exact Or.inr ⟨hkey, List.mem_cons_of_mem _ hmem⟩

theorem colMapLookup_mem (cols : List String) (key c : String)
    (h : colMapLookup cols key = some c) :
    lowerStr (trimStr c) = key ∧ c ∈ cols := by
  rcases colMapLookup_go key cols none c h with h' | h'
  · exact absurd h' (by simp)
  · exact h'

theorem compute_mapping_go (cols : List String) :
    ∀ (keys : List String) (m : List (String × String)) (mk : List String),
      keys.foldl
        (fun (acc : List (String × String) × List String) key =>
          match colMapLookup cols key with
          | some c => (acc.1 ++ [(key, c)], acc.2 ++ [key])
          | none => acc) (m, mk) =
      (m ++ (keys.filter (fun k => (colMapLookup cols k).isSome)).map
          (fun k => (k, (colMapLookup cols k).getD "")),
       mk ++ keys.filter (fun k => (colMapLookup cols k).isSome)) := by
  intro keys
  induction keys with
  | nil => intro m mk; simp
  | cons k rest ih =>
    intro m mk
    simp only [List.foldl_cons]
    cases hk : colMapLookup cols k with
    | none =>
      rw [ih]
      simp [List.filter_cons, hk]
    | some c =>
      rw [ih]
      simp [List.filter_cons, hk, List.append_assoc]

/-- C9: `_compute_mapping` partitions the placeholder keys: the matched
pairs carry exactly the keys with a case-insensitive column match, in input
order, each paired with an original column whose trimmed lowercase form
equals the key; the unmatched list is exactly the other keys, in input
order; and every input key lands in exactly one of the two lists. -/
theorem compute_mapping_partition_c9 (cols keys : List String) :
    (compute_mapping cols keys).1.map Prod.fst =
        keys.filter (fun k => (colMapLookup cols k).isSome)
    ∧ (compute_mapping cols keys).2 =
        keys.filter (fun k => ¬ (colMapLookup cols k).isSome)
    ∧ (∀ p ∈ (compute_mapping cols keys).1,
        lowerStr (trimStr p.2) = p.1 ∧ p.2 ∈ cols)
    ∧ (∀ k ∈ keys,
        (k ∈ (compute_mapping cols keys).1.map Prod.fst ∧
          k ∉ (compute_mapping cols keys).2)
        ∨ (k ∉ (compute_mapping cols keys).1.map Prod.fst ∧
          k ∈ (compute_mapping cols keys).2)) := by
  have hgo := compute_mapping_go cols keys [] []
  have h1 : (compute_mapping cols keys).1 =
      (keys.filter (fun k => (colMapLookup cols k).isSome)).map
        (fun k => (k, (colMapLookup cols k).getD "")) := by
    simp only [compute_mapping]
    rw [hgo]
    simp
  have hmk : (compute_mapping cols keys).2 =
      keys.filter (fun k => ¬ (List.filter (fun k => (colMapLookup cols k).isSome) keys).contains k) := by
    simp only [compute_mapping]
    rw [hgo]
    simp
  have h2 : (compute_mapping cols keys).2 =
      keys.filter (fun k => ¬ (colMapLookup cols k).isSome) := by
    rw [hmk]
    refine List.filter_congr ?_
    intro k hk
    have hmemiff :
        (List.filter (fun k => (colMapLookup cols k).isSome) keys).contains k = true
          ↔ (colMapLookup cols k).isSome = true := by
      constructor
      · intro h
        have hmem : k ∈ List.filter (fun k => (colMapLookup cols k).isSome) keys :=
          List.elem_iff.mp h
        simpa using (List.mem_filter.mp hmem).2
      · intro h
        exact List.elem_iff.mpr (List.mem_filter.mpr ⟨hk, by simpa using h⟩)
    rw [decide_eq_decide]
    exact not_congr hmemiff
  have hfst : (compute_mapping cols keys).1.map Prod.fst =
      keys.filter (fun k => (colMapLookup cols k).isSome) := by
    rw [h1, List.map_map]
    have : (Prod.fst ∘ fun k => (k, (colMapLookup cols k).getD "")) = id := rfl
    rw [this, List.map_id]
  refine ⟨hfst, h2, ?_, ?_⟩
  · intro p hp
    rw [h1] at hp
    obtain ⟨k, hkmem, hkp⟩ := List.mem_map.mp hp
    have hsome : (colMapLookup cols k).isSome := by
      have := List.mem_filter.mp hkmem
      simpa using this.2
    obtain ⟨c, hc⟩ := Option.isSome_iff_exists.mp hsome
    have hm := colMapLookup_mem cols k c hc
    rw [← hkp]
    simp only [hc, Option.getD_some]
    exact hm
  · intro k hk
    by_cases hs : (colMapLookup cols k).isSome
    · left
      constructor
      · rw [hfst]; exact List.mem_filter.mpr ⟨hk, by simpa using hs⟩
      · rw [h2]
        intro hmem
        have := List.mem_filter.mp hmem
        simp only [decide_eq_true_eq] at this
        exact absurd hs this.2
    · right
      constructor
      · rw [hfst]
        intro hmem
        have := List.mem_filter.mp hmem
        simp only [decide_eq_true_eq] at this
        exact absurd this.2 hs
      · rw [h2]; exact List.mem_filter.mpr ⟨hk, by simpa using hs⟩

end CertifyFast
